import Mathlib

/-!
Verification development for the core of the axiom actor runtime:
a pooled two-linked-list bounded queue (`src/pooled_queue.rs`) and the
actor / dispatcher layer (`src/actors.rs`).

The pooled queue is embedded at the pointer level: nodes live in a fixed
slice, `next` pointers are `Option Nat` node indices (`none` = null), and
`push` / `pop` perform exactly the pointer writes of the source.  The
actor layer is embedded over a model of the skip-enabled channel (secc)
that the source uses for mailboxes and the run queue; that channel crate
is not part of the sources, so it is modelled from the specification.
-/

namespace AxiomModel

/-- A node in the pooled linked lists (`Node<T>` in `pooled_queue.rs`):
a value slot and a `next` pointer (`none` models a null `AtomicPtr`). -/
structure Node (α : Type) where
  value : Option α
  next : Option Nat
  deriving Repr, DecidableEq

/-- Error values of the pooled queue (`PooledQueueError`). -/
inductive PooledQueueError : Type where
  | QueueFull
  | QueueEmpty
  deriving Repr, DecidableEq

/-- The whole pooled-queue state: the `Core` (capacity, node storage and
the `length`/`enqueued`/`dequeued` counters) together with the pointer
fields of the `Enqueue` side (`pool_head`, `queue_tail`) and of the
`Dequeue` side (`pool_tail`, `queue_head`).  Pointers are indices into
`nodes`. -/
structure PooledQueue (α : Type) where
  capacity : Nat
  nodes : List (Node α)
  length : Nat
  enqueued : Nat
  dequeued : Nat
  pool_head : Nat
  queue_tail : Nat
  pool_tail : Nat
  queue_head : Nat
  deriving Repr

/-- Dereference a node pointer (a raw pointer dereference in the source;
out-of-range reads never happen in well-formed states). -/
def getNode (s : PooledQueue α) (i : Nat) : Node α :=
  s.nodes.getD i ⟨none, none⟩

/-- The `next` field of node `i`. -/
def nextOf (s : PooledQueue α) (i : Nat) : Option Nat :=
  (getNode s i).next

/-- The `value` field of node `i`. -/
def valOf (s : PooledQueue α) (i : Nat) : Option α :=
  (getNode s i).value

/-- Store to the `next` field of node `i`
(an `AtomicPtr::store` in the source). -/
def setNext (s : PooledQueue α) (i : Nat) (o : Option Nat) : PooledQueue α :=
  { s with nodes := s.nodes.set i { getNode s i with next := o } }

/-- Store to the `value` field of node `i`. -/
def setValue (s : PooledQueue α) (i : Nat) (v : Option α) : PooledQueue α :=
  { s with nodes := s.nodes.set i { getNode s i with value := v } }

/-- Embedding of `Enqueue::push` (lines 82-104 of `pooled_queue.rs`), step by step:
load `pool_head.next`; if null fail with `QueueFull`; otherwise store
null into `pool_head.next`, write the value into the current
`queue_tail`, link `queue_tail.next` to the old `pool_head`, advance the
`queue_tail` and `pool_head` pointers, bump `enqueued` and `length`, and
return the incremented length.  On failure the state is returned
untouched, exactly as the early `return` leaves `self`. -/
def push (s : PooledQueue α) (v : α) : Except PooledQueueError Nat × PooledQueue α :=
  match nextOf s s.pool_head with
  | none => (.error .QueueFull, s)
  | some next_pool_head =>
    let s1 := setNext s s.pool_head none
    let s2 := setValue s1 s.queue_tail (some v)
    let s3 := setNext s2 s.queue_tail (some s.pool_head)
    (.ok (s.length + 1),
      { s3 with
        queue_tail := s.pool_head
        pool_head := next_pool_head
        enqueued := s.enqueued + 1
        length := s.length + 1 })

/-- Embedding of `Dequeue::pop` (lines 129-150 of `pooled_queue.rs`): load
`queue_head.next`; if null fail with `QueueEmpty`; otherwise take the
value out of `queue_head` (`Option::take` + `unwrap`; the outer `none`
models the panic on an empty slot, which never happens in well-formed
states), null `queue_head.next`, link `pool_tail.next` to the old
`queue_head`, advance `pool_tail` and `queue_head`, bump `dequeued`,
decrement `length`. -/
def pop (s : PooledQueue α) : Option (Except PooledQueueError α × PooledQueue α) :=
  match nextOf s s.queue_head with
  | none => some (.error .QueueEmpty, s)
  | some next_queue_head =>
    match valOf s s.queue_head with
    | none => none
    | some result =>
      let s1 := setValue s s.queue_head none
      let s2 := setNext s1 s.queue_head none
      let s3 := setNext s2 s.pool_tail (some s.queue_head)
      some (.ok result,
        { s3 with
          pool_tail := s.queue_head
          queue_head := next_queue_head
          dequeued := s.dequeued + 1
          length := s.length - 1 })

/-- Embedding of `create` (lines 160-216 of `pooled_queue.rs`).  `none` models the
panic on `capacity < 1`.  Node 0 is the initial queue node
(`queue_head = queue_tail = 0`); node 1 is the first pool node
(`pool_tail = 1`); the loop pushes `capacity` more pool nodes, each
linked to the previous `pool_head`, so node `j` (for `2 ≤ j ≤ C+1`) has
`next = some (j-1)` and the final `pool_head` is node `C+1`. -/
def create (C : Nat) : Option (PooledQueue α) :=
  if C < 1 then none
  else some
    { capacity := C
      nodes := ⟨none, none⟩ :: ⟨none, none⟩ ::
        (List.range' 1 C).map (fun i => ⟨none, some i⟩)
      length := 0
      enqueued := 0
      dequeued := 0
      pool_head := C + 1
      queue_tail := 0
      pool_tail := 1
      queue_head := 0 }

/-! ### Linked chains of node indices -/

/-- The predicate `chain nx ids` says consecutive indices in `ids` are linked by the
`next` function `nx`.  The `next` of the last element is not constrained
here; the representation invariant pins it to `none` separately. -/
def chain (nx : Nat → Option Nat) : List Nat → Prop
  | [] => True
  | [_] => True
  | a :: b :: r => nx a = some b ∧ chain nx (b :: r)

/-! ### The representation invariant -/

/-- The relation `ReprW s l qids pids` witnesses that the pooled-queue state `s`
represents the FIFO contents `l`: `qids` is the queue list of node
indices running from `queue_head` to `queue_tail`, `pids` the pool list
from `pool_head` to `pool_tail`; the chains are disjoint, in bounds,
the queue nodes before the tail sentinel hold exactly the values of `l`,
pool nodes (and the tail sentinel) are empty, and the counters agree
with the contents. -/
structure ReprW (s : PooledQueue α) (l : List α) (qids pids : List Nat) : Prop where
  qchain : chain (nextOf s) qids
  qhead : qids.head? = some s.queue_head
  qlast : qids.getLast? = some s.queue_tail
  qterm : nextOf s s.queue_tail = none
  pchain : chain (nextOf s) pids
  phead : pids.head? = some s.pool_head
  plast : pids.getLast? = some s.pool_tail
  pterm : nextOf s s.pool_tail = none
  nodup : (qids ++ pids).Nodup
  bounds : ∀ i ∈ qids ++ pids, i < s.nodes.length
  qvals : qids.map (valOf s) = l.map some ++ [none]
  pvals : ∀ i ∈ pids, valOf s i = none
  len : s.length = l.length
  lenle : l.length ≤ s.capacity
  plen : pids.length = s.capacity + 1 - s.length
  cnt : s.enqueued = s.dequeued + s.length

/-- The pooled-queue state `s` is well formed and represents the FIFO
contents `l`. -/
def Repres (s : PooledQueue α) (l : List α) : Prop :=
  ∃ qids pids, ReprW s l qids pids

/-- The descending index list `[k, k-1, ..., 1]`: the pool list laid
down by `create`, whose cons-like loop makes each new node point at the
previous pool head. -/
def descIds : Nat → List Nat
  | 0 => []
  | k + 1 => (k + 1) :: descIds k

/-! ### Interleaved operation traces and the spec-side FIFO model -/

/-- One queue operation of a trace. -/
inductive QOp (α : Type) where
  | push (v : α)
  | pop
  deriving Repr

/-- The observable outcome of one queue operation. -/
inductive QOut (α : Type) where
  | pushed (r : Except PooledQueueError Nat)
  | popped (r : Except PooledQueueError α)
  deriving Repr

/-- Run a trace of operations against the pooled queue; `none` only if a
`pop` would hit the `unwrap` panic on an empty value slot. -/
def runOps (s : PooledQueue α) : List (QOp α) → Option (List (QOut α) × PooledQueue α)
  | [] => some ([], s)
  | .push v :: ops =>
    (runOps (push s v).2 ops).map (fun p => (.pushed (push s v).1 :: p.1, p.2))
  | .pop :: ops =>
    (pop s).bind fun r => (runOps r.2 ops).map (fun p => (.popped r.1 :: p.1, p.2))

/-- Run a trace starting from a freshly created pooled queue. -/
def runFrom (C : Nat) (ops : List (QOp α)) : Option (List (QOut α) × PooledQueue α) :=
  (create C).bind fun s0 => runOps s0 ops

/-- The simple bounded FIFO queue over lists that the specification
describes (push appends at the tail and fails with `Full` at capacity,
returning the new count; pop removes the head and fails with `Empty`
when the list is empty). -/
def specPush (C : Nat) (l : List α) (v : α) : Except PooledQueueError Nat × List α :=
  if l.length = C then (.error .QueueFull, l) else (.ok (l.length + 1), l ++ [v])

/-- Spec-side pop on the simple list queue. -/
def specPop (l : List α) : Except PooledQueueError α × List α :=
  match l with
  | [] => (.error .QueueEmpty, [])
  | x :: xs => (.ok x, xs)

/-- Run the same trace against the simple list queue. -/
def specRun (C : Nat) (l : List α) : List (QOp α) → List (QOut α) × List α
  | [] => ([], l)
  | .push v :: ops =>
    ((specRun C (specPush C l v).2 ops).1.cons (.pushed (specPush C l v).1),
      (specRun C (specPush C l v).2 ops).2)
  | .pop :: ops =>
    ((specRun C (specPop l).2 ops).1.cons (.popped (specPop l).1),
      (specRun C (specPop l).2 ops).2)

/-- A concrete capacity-1 pooled queue as laid out by `create 1`,
used to instantiate theorems at concrete inputs. -/
def pqEx : PooledQueue Nat :=
  { capacity := 1
    nodes := [⟨none, none⟩, ⟨none, none⟩, ⟨none, some 1⟩]
    length := 0
    enqueued := 0
    dequeued := 0
    pool_head := 2
    queue_tail := 0
    pool_tail := 1
    queue_head := 0 }

/-! ### The actor layer (`actors.rs`), over a spec-modelled channel -/

/-- The `Status` of processing a message (`actors.rs`). -/
inductive Status : Type where
  | Processed
  | Skipped
  | ResetSkip
  deriving Repr, DecidableEq

/-- Modelled from the spec: the skip-enabled channel (the `secc` crate)
that `actors.rs` uses for mailboxes and for the run queue; the crate is
not among the sources.  Per §4.1 of the spec: `messages` holds the
pending messages in FIFO order, `cursor` counts the messages hidden
behind the skip cursor (`0` = no cursor set), `sent` and `received` are
the monotonic counters; *deliverable* (`receivable` in the source) is
`pending - cursor`. -/
structure SeccChannel (μ : Type) where
  capacity : Nat
  messages : List μ
  cursor : Nat
  sent : Nat
  received : Nat
  deriving Repr

namespace SeccChannel

/-- Modelled from the spec: create a channel with the given capacity. -/
def create (c : Nat) : SeccChannel μ :=
  { capacity := c, messages := [], cursor := 0, sent := 0, received := 0 }

/-- Modelled from the spec: number of pending messages. -/
def pending (ch : SeccChannel μ) : Nat := ch.messages.length

/-- Modelled from the spec: the deliverable count — pending messages not
hidden behind the skip cursor. -/
def receivable (ch : SeccChannel μ) : Nat := ch.messages.length - ch.cursor

/-- Modelled from the spec: push, which appends at the tail and fails
with `Full` when `pending = capacity`, otherwise returns the updated
channel and the new deliverable count.  The blocking `send_await` is
this operation once room is available; `none` covers both the `Full`
error of the non-blocking `send` and blocking forever on a full channel
with no consumer. -/
def send_await (ch : SeccChannel μ) (m : μ) : Option (SeccChannel μ × Nat) :=
  if ch.messages.length = ch.capacity then none
  else some ({ ch with messages := ch.messages ++ [m], sent := ch.sent + 1 },
    (ch.messages.length + 1) - ch.cursor)

/-- Modelled from the spec: a send whose result is discarded by the
caller (`ActorSystem::schedule` ignores the scheduler send's result). -/
def sendDrop (ch : SeccChannel μ) (m : μ) : SeccChannel μ :=
  match send_await ch m with
  | some p => p.1
  | none => ch

/-- Modelled from the spec: peek returns the head message as seen
through the skip cursor, failing with `Empty` when deliverable = 0. -/
def peek (ch : SeccChannel μ) : Option μ := ch.messages[ch.cursor]?

/-- Modelled from the spec: pop removes the message `peek` would return
and increments `received`; fails with `Empty` when deliverable = 0. -/
def pop (ch : SeccChannel μ) : Option (μ × SeccChannel μ) :=
  match ch.messages[ch.cursor]? with
  | none => none
  | some m => some (m,
      { ch with messages := ch.messages.eraseIdx ch.cursor,
                received := ch.received + 1 })

/-- Modelled from the spec: skip advances the skip cursor past the
message `peek` would return; fails with `Empty` when deliverable = 0. -/
def skip (ch : SeccChannel μ) : Option (SeccChannel μ) :=
  if ch.cursor < ch.messages.length then some { ch with cursor := ch.cursor + 1 }
  else none

/-- Modelled from the spec: reset_skip clears the skip cursor, restoring
visibility of all pending messages from the true head; always succeeds. -/
def reset_skip (ch : SeccChannel μ) : SeccChannel μ := { ch with cursor := 0 }

end SeccChannel

/-- An `Actor` (`actors.rs`): its id, the receiver side of its message
channel, and the handler closure built by `Actor::new` over the private
`state` and the user `processor(&mut state, aid, message)`. -/
structure Actor (σ μ : Type) where
  aid : Nat
  receiver : SeccChannel μ
  state : σ
  handler : σ → Nat → μ → σ × Status

/-- Embedding of `Actor::new` (actors.rs lines 132-166): builds the actor around a
channel created with the hard-coded capacity `secc::create(32)`; no
argument lets the caller choose another capacity. -/
def Actor.new (aid : Nat) (state : σ) (processor : σ → Nat → μ → σ × Status) :
    Actor σ μ :=
  { aid := aid, receiver := SeccChannel.create 32, state := state,
    handler := processor }

/-- Embedding of `Actor::receive` (actors.rs lines 189-209): peek; on `Empty` return
at once; otherwise invoke the handler and run the mailbox operation the
returned `Status` selects (`Processed → pop`, `Skipped → skip`,
`ResetSkip → reset_skip`), leaving the channel untouched if that
operation errors.  The second component reports the peeked message and
status, `none` when the handler was not invoked. -/
def Actor.receive (a : Actor σ μ) : Actor σ μ × Option (μ × Status) :=
  match a.receiver.peek with
  | none => (a, none)
  | some message =>
    let r := a.handler a.state a.aid message
    let queue_result : Option (SeccChannel μ) :=
      match r.2 with
      | .Processed => (a.receiver.pop).map Prod.snd
      | .Skipped => a.receiver.skip
      | .ResetSkip => some a.receiver.reset_skip
    match queue_result with
    | some ch => ({ a with receiver := ch, state := r.1 }, some (message, r.2))
    | none => ({ a with state := r.1 }, some (message, r.2))

/-- The dispatcher-facing state of an `ActorSystem`: the run channel of
ready actor ids and the registry of actors; actor ids are indices into
`actors`. -/
structure DispatchState (σ μ : Type) where
  runQueue : SeccChannel Nat
  actors : List (Actor σ μ)

/-- Embedding of `ActorSystem::schedule` (actors.rs lines 290-294): pushes the aid
onto the run channel, discarding the result. -/
def schedule (sys : DispatchState σ μ) (aid : Nat) : DispatchState σ μ :=
  { sys with runQueue := SeccChannel.sendDrop sys.runQueue aid }

/-- Embedding of `spawn` (actors.rs lines 299-308): builds a new actor via
`Actor::new` and inserts it into the registry, returning its id. -/
def spawn (sys : DispatchState σ μ) (state : σ)
    (processor : σ → Nat → μ → σ × Status) : DispatchState σ μ × Nat :=
  ({ sys with actors := sys.actors ++ [Actor.new sys.actors.length state processor] },
    sys.actors.length)

/-- Embedding of `send` (actors.rs lines 311-322): push the message on the target's
mailbox with `send_await` (`none` models blocking forever on a full
mailbox, and the `unwrap`); if the returned deliverable count is 1,
schedule the aid. -/
def send (sys : DispatchState σ μ) (aid : Nat) (message : μ) :
    Option (DispatchState σ μ) :=
  match sys.actors[aid]? with
  | none => none
  | some actor =>
    match actor.receiver.send_await message with
    | none => none
    | some (ch, readable) =>
      let sys1 : DispatchState σ μ :=
        { sys with actors := sys.actors.set aid { actor with receiver := ch } }
      if readable = 1 then some (schedule sys1 aid) else some sys1

/-- The entire body of the closure passed to `thread::spawn` in
`ActorSystem::start_dispatcher_thread` (actors.rs lines 266-287): one
`receive_await` on the run channel, one turn on the resolved actor, one
conditional re-enqueue — and nothing more: the closure contains no loop,
so this function is the complete execution of a worker thread.  (An
empty run queue parks the thread: modelled as the unchanged state; a
missing aid is the `unwrap` panic, unreachable in modelled runs; the
re-enqueue's discarded result is `sendDrop`.) -/
def dispatcherThread (sys : DispatchState σ μ) : DispatchState σ μ :=
  match sys.runQueue.pop with
  | none => sys
  | some (aid, rq) =>
    match sys.actors[aid]? with
    | none => sys
    | some actor =>
      let r := actor.receive
      let actors1 := sys.actors.set aid r.1
      if 0 < r.1.receiver.receivable then
        { runQueue := SeccChannel.sendDrop rq aid, actors := actors1 }
      else
        { runQueue := rq, actors := actors1 }

/-- The thread-spawning outcome of `ActorSystem::create`
(actors.rs lines 238-263): the run channel size, and one entry per
spawned dispatcher thread. -/
structure ActorSystemModel where
  run_channel_size : Nat
  thread_pool : List Nat

/-- Embedding of `ActorSystem::create` (actors.rs lines 238-263): allocates the run
channel and collects `(1..thread_pool_size).map(|_i| start_dispatcher_thread(..))`;
Rust's `(1..n)` iterates over `1, ..., n-1`, i.e. `List.range' 1 (n-1)`,
so element `i` of `thread_pool` stands for the join handle of the `i`-th
spawned dispatcher thread. -/
def ActorSystem.create (run_channel_size thread_pool_size : Nat) : ActorSystemModel :=
  { run_channel_size := run_channel_size
    thread_pool := List.range' 1 (thread_pool_size - 1) }

/-- A ready actor with one pending message and a handler that processes
every message. -/
def exActor : Actor Nat Nat :=
  { aid := 0
    receiver := { capacity := 32, messages := [42], cursor := 0, sent := 1, received := 0 }
    state := 0
    handler := fun s _ _ => (s, Status.Processed) }

/-- A system whose run queue holds two ready actors. -/
def exSys : DispatchState Nat Nat :=
  { runQueue := { capacity := 10, messages := [0, 1], cursor := 0, sent := 2, received := 0 }
    actors := [exActor, { exActor with aid := 1 }] }

/-- An idle actor with an empty mailbox. -/
def exIdleActor : Actor Nat Nat :=
  { aid := 0
    receiver := { capacity := 32, messages := [], cursor := 0, sent := 0, received := 0 }
    state := 0
    handler := fun s _ _ => (s, Status.Processed) }

/-- A system with an empty run queue and one idle actor. -/
def exSendSys : DispatchState Nat Nat :=
  { runQueue := { capacity := 10, messages := [], cursor := 0, sent := 0, received := 0 }
    actors := [exIdleActor] }

/-- An actor whose skip cursor sits past the first of two pending
messages and whose handler answers `ResetSkip`. -/
def exResetActor : Actor Nat Nat :=
  { aid := 0
    receiver := { capacity := 32, messages := [10, 20], cursor := 1, sent := 2, received := 0 }
    state := 0
    handler := fun s _ _ => (s, Status.ResetSkip) }

/-! ### Basic lemmas about node reads and writes -/

theorem getD_set_ne {β : Type} (l : List β) (i j : Nat) (x d : β) (h : i ≠ j) :
    (l.set i x).getD j d = l.getD j d := by
  simp [List.getD, List.getElem?_set_ne h]

theorem getD_set_self {β : Type} (l : List β) (i : Nat) (x d : β) (h : i < l.length) :
    (l.set i x).getD i d = x := by
  simp [List.getD, List.getElem?_set_self, h]

theorem nodes_setNext (s : PooledQueue α) (i : Nat) (o : Option Nat) :
    (setNext s i o).nodes.length = s.nodes.length := List.length_set _ _ _

theorem nodes_setValue (s : PooledQueue α) (i : Nat) (v : Option α) :
    (setValue s i v).nodes.length = s.nodes.length := List.length_set _ _ _

theorem nextOf_setNext_ne (s : PooledQueue α) (i j : Nat) (o : Option Nat) (h : i ≠ j) :
    nextOf (setNext s i o) j = nextOf s j := by
  simp only [nextOf, setNext, getNode]
  rw [getD_set_ne _ _ _ _ _ h]

theorem nextOf_setNext_self (s : PooledQueue α) (i : Nat) (o : Option Nat)
    (h : i < s.nodes.length) : nextOf (setNext s i o) i = o := by
  simp only [nextOf, setNext, getNode]
  rw [getD_set_self _ _ _ _ h]

theorem valOf_setNext (s : PooledQueue α) (i j : Nat) (o : Option Nat) :
    valOf (setNext s i o) j = valOf s j := by
  by_cases hij : i = j
  · subst hij
    by_cases hlt : i < s.nodes.length
    · simp only [valOf, setNext, getNode]
      rw [getD_set_self _ _ _ _ hlt]
    · simp only [valOf, setNext, getNode,
        List.set_eq_of_length_le (Nat.le_of_not_lt hlt)]
  · simp only [valOf, setNext, getNode]
    rw [getD_set_ne _ _ _ _ _ hij]

theorem nextOf_setValue (s : PooledQueue α) (i j : Nat) (v : Option α) :
    nextOf (setValue s i v) j = nextOf s j := by
  by_cases hij : i = j
  · subst hij
    by_cases hlt : i < s.nodes.length
    · simp only [nextOf, setValue, getNode]
      rw [getD_set_self _ _ _ _ hlt]
    · simp only [nextOf, setValue, getNode,
        List.set_eq_of_length_le (Nat.le_of_not_lt hlt)]
  · simp only [nextOf, setValue, getNode]
    rw [getD_set_ne _ _ _ _ _ hij]

theorem valOf_setValue_ne (s : PooledQueue α) (i j : Nat) (v : Option α) (h : i ≠ j) :
    valOf (setValue s i v) j = valOf s j := by
  simp only [valOf, setValue, getNode]
  rw [getD_set_ne _ _ _ _ _ h]

theorem valOf_setValue_self (s : PooledQueue α) (i : Nat) (v : Option α)
    (h : i < s.nodes.length) : valOf (setValue s i v) i = v := by
  simp only [valOf, setValue, getNode]
  rw [getD_set_self _ _ _ _ h]

theorem chain_tail {nx : Nat → Option Nat} {a : Nat} {l : List Nat}
    (h : chain nx (a :: l)) : chain nx l := by
  cases l with
  | nil => trivial
  | cons b r => exact h.2

theorem chain_head_link {nx : Nat → Option Nat} {a b : Nat} {l : List Nat}
    (h : chain nx (a :: l)) (hb : l.head? = some b) : nx a = some b := by
  cases l with
  | nil => simp at hb
  | cons c r =>
    obtain rfl : c = b := by simpa using hb
    exact h.1

/-- A chain only looks at the `next` of all elements but the last, so it
is stable under writes to other nodes (and to the last node). -/
theorem chain_congr {nx nx' : Nat → Option Nat} :
    ∀ {ids : List Nat}, (∀ i ∈ ids.dropLast, nx' i = nx i) → chain nx ids → chain nx' ids
  | [], _, _ => trivial
  | [_], _, _ => trivial
  | a :: b :: r, hf, hc => by
    refine ⟨?_, chain_congr (fun i hi => hf i ?_) hc.2⟩
    · rw [hf a (by simp), hc.1]
    · simpa using Or.inr hi

/-- Extending a chain at its end. -/
theorem chain_snoc {nx : Nat → Option Nat} :
    ∀ {ids : List Nat} {t a : Nat}, chain nx ids → ids.getLast? = some t →
      nx t = some a → chain nx (ids ++ [a])
  | [], _, _, _, hl, _ => by simp at hl
  | [x], t, a, _, hl, hna => by
    obtain rfl : x = t := by simpa using hl
    exact ⟨hna, trivial⟩
  | x :: y :: r, t, a, hc, hl, hna => by
    refine ⟨hc.1, ?_⟩
    exact chain_snoc hc.2 (by simpa using hl) hna

theorem mem_of_headq {β : Type} {l : List β} {a : β} (h : l.head? = some a) : a ∈ l := by
  cases l with
  | nil => simp at h
  | cons x t =>
    obtain rfl : x = a := by simpa using h
    exact List.mem_cons_self _ _

theorem mem_of_lastq {β : Type} {l : List β} {a : β} (h : l.getLast? = some a) : a ∈ l :=
  List.mem_of_mem_getLast? (by simp [h])

theorem headq_append_left {β : Type} {l : List β} (m : List β) (h : l ≠ []) :
    (l ++ m).head? = l.head? := by
  cases l with
  | nil => exact absurd rfl h
  | cons a t => simp

/-- On a full queue `push` fails with `QueueFull` and leaves the whole
state — counters and node links — untouched: the pool list is then the
single mandatory node, whose `next` is null, and the source returns
before any store. -/
theorem push_full {s : PooledQueue α} {l : List α} (hr : Repres s l)
    (hfull : l.length = s.capacity) (v : α) :
    push s v = (.error .QueueFull, s) := by
  obtain ⟨qids, pids, hw⟩ := hr
  have hplen : pids.length = s.capacity + 1 - s.length := hw.plen
  have hlen : s.length = l.length := hw.len
  have h1 : pids.length = 1 := by omega
  obtain ⟨p, rfl⟩ := List.length_eq_one.mp h1
  have hph : p = s.pool_head := by simpa using hw.phead
  have hpt : p = s.pool_tail := by simpa using hw.plast
  have hnone : nextOf s s.pool_head = none := by
    rw [← hph, hpt]; exact hw.pterm
  unfold push
  rw [hnone]

/-- On an empty queue `pop` fails with `QueueEmpty` and leaves the whole
state untouched: the queue list is then the single sentinel node, whose
`next` is null, and the source returns before any store. -/
theorem pop_empty {s : PooledQueue α} (hr : Repres s []) :
    pop s = some (.error .QueueEmpty, s) := by
  obtain ⟨qids, pids, hw⟩ := hr
  have h1 : qids.length = 1 := by
    have := congrArg List.length hw.qvals
    simpa using this
  obtain ⟨q, rfl⟩ := List.length_eq_one.mp h1
  have hqh : q = s.queue_head := by simpa using hw.qhead
  have hqt : q = s.queue_tail := by simpa using hw.qlast
  have hnone : nextOf s s.queue_head = none := by
    rw [← hqh, hqt]; exact hw.qterm
  unfold pop
  rw [hnone]

/-- Successful `push`: on a non-full well-formed queue, `push` returns
the incremented length and the resulting state represents `l ++ [v]`:
the old pool head becomes the new tail sentinel and the pushed value
sits in the old tail sentinel. -/
theorem push_sim {s : PooledQueue α} {l : List α} (hr : Repres s l)
    (hlt : l.length < s.capacity) (v : α) :
    (push s v).1 = .ok (l.length + 1) ∧ Repres (push s v).2 (l ++ [v]) ∧
      (push s v).2.capacity = s.capacity := by
  obtain ⟨qids, pids, hw⟩ := hr
  have hplen : pids.length = s.capacity + 1 - s.length := hw.plen
  have hlen : s.length = l.length := hw.len
  have hplen2 : 2 ≤ pids.length := by omega
  obtain ⟨p, b, rest, rfl⟩ : ∃ p b rest, pids = p :: b :: rest := by
    cases pids with
    | nil => simp at hplen2
    | cons p t =>
      cases t with
      | nil => simp at hplen2
      | cons b rest => exact ⟨p, b, rest, rfl⟩
  have hph : p = s.pool_head := by simpa using hw.phead
  subst hph
  have hnb : nextOf s s.pool_head = some b := hw.pchain.1
  -- decompose the queue list around its tail sentinel
  have hT : qids.getLast? = some s.queue_tail := hw.qlast
  have hqne : qids ≠ [] := by intro h; rw [h] at hT; simp at hT
  obtain ⟨qinit, rfl⟩ : ∃ qinit, qids = qinit ++ [s.queue_tail] := by
    refine ⟨qids.dropLast, ?_⟩
    have h1 := List.dropLast_append_getLast hqne
    have h2 : qids.getLast hqne = s.queue_tail := by
      have h3 := List.getLast?_eq_getLast qids hqne
      rw [h3] at hT; simpa using hT
    rw [h2] at h1; exact h1.symm
  -- basic disjointness and bounds facts
  have hnd := List.nodup_append.mp hw.nodup
  have hqnd := hnd.1
  have hpnd := hnd.2.1
  have hdisj := hnd.2.2
  have htmem : s.queue_tail ∈ qinit ++ [s.queue_tail] := by simp
  have hpmem : s.pool_head ∈ s.pool_head :: b :: rest := List.mem_cons_self _ _
  have htnp : s.queue_tail ≠ s.pool_head := fun h => hdisj htmem (h ▸ hpmem)
  have htinit : s.queue_tail ∉ qinit := by
    have hx := List.nodup_append.mp hqnd
    exact fun hm => hx.2.2 hm (by simp)
  have hpninit : s.pool_head ∉ b :: rest := (List.nodup_cons.mp hpnd).1
  have htb : s.queue_tail < s.nodes.length :=
    hw.bounds _ (List.mem_append.mpr (Or.inl htmem))
  have hpb : s.pool_head < s.nodes.length :=
    hw.bounds _ (List.mem_append.mpr (Or.inr hpmem))
  -- the pushed state
  have hpush : push s v =
      (.ok (s.length + 1),
        { setNext (setValue (setNext s s.pool_head none) s.queue_tail (some v))
            s.queue_tail (some s.pool_head) with
          queue_tail := s.pool_head
          pool_head := b
          enqueued := s.enqueued + 1
          length := s.length + 1 }) := by
    unfold push
    rw [hnb]
  rw [hpush]
  set sF : PooledQueue α :=
    { setNext (setValue (setNext s s.pool_head none) s.queue_tail (some v))
        s.queue_tail (some s.pool_head) with
      queue_tail := s.pool_head
      pool_head := b
      enqueued := s.enqueued + 1
      length := s.length + 1 } with hsF
  have hlenF : sF.nodes.length = s.nodes.length := by
    show (setNext _ _ _).nodes.length = _
    rw [nodes_setNext, nodes_setValue, nodes_setNext]
  have hnxF : ∀ j, nextOf sF j =
      if j = s.queue_tail then some s.pool_head
      else if j = s.pool_head then none else nextOf s j := by
    intro j
    have h0 : nextOf sF j =
        nextOf (setNext (setValue (setNext s s.pool_head none) s.queue_tail (some v))
          s.queue_tail (some s.pool_head)) j := rfl
    rw [h0]
    by_cases h1 : j = s.queue_tail
    · subst h1
      rw [nextOf_setNext_self _ _ _ (by rw [nodes_setValue, nodes_setNext]; exact htb)]
      simp
    · rw [nextOf_setNext_ne _ _ _ _ (fun hh => h1 hh.symm), nextOf_setValue]
      by_cases h2 : j = s.pool_head
      · subst h2
        rw [nextOf_setNext_self _ _ _ hpb]
        simp [h1]
      · rw [nextOf_setNext_ne _ _ _ _ (fun hh => h2 hh.symm)]
        simp [h1, h2]
  have hvF : ∀ j, valOf sF j = if j = s.queue_tail then some v else valOf s j := by
    intro j
    have h0 : valOf sF j =
        valOf (setNext (setValue (setNext s s.pool_head none) s.queue_tail (some v))
          s.queue_tail (some s.pool_head)) j := rfl
    rw [h0, valOf_setNext]
    by_cases h1 : j = s.queue_tail
    · subst h1
      rw [valOf_setValue_self _ _ _ (by rw [nodes_setNext]; exact htb)]
      simp
    · rw [valOf_setValue_ne _ _ _ _ (fun hh => h1 hh.symm), valOf_setNext]
      simp [h1]
  -- queue-side value split
  have h0 := hw.qvals
  rw [List.map_append] at h0
  simp only [List.map_cons, List.map_nil] at h0
  have hsplit := List.append_inj' h0 rfl
  have hqv : qinit.map (valOf s) = l.map some := hsplit.1
  refine ⟨by simp [hlen], ⟨(qinit ++ [s.queue_tail]) ++ [s.pool_head], b :: rest, ?_⟩, rfl⟩
  refine
    { qchain := ?_, qhead := ?_, qlast := ?_, qterm := ?_
      pchain := ?_, phead := ?_, plast := ?_, pterm := ?_
      nodup := ?_, bounds := ?_, qvals := ?_, pvals := ?_
      len := ?_, lenle := ?_, plen := ?_, cnt := ?_ }
  · -- qchain
    have hchain0 : chain (nextOf sF) (qinit ++ [s.queue_tail]) := by
      refine chain_congr (fun i hi => ?_) hw.qchain
      rw [List.dropLast_concat] at hi
      have hit : i ≠ s.queue_tail := fun h => htinit (h ▸ hi)
      have hip : i ≠ s.pool_head := fun h =>
        hdisj (List.mem_append.mpr (Or.inl hi)) (h ▸ hpmem)
      rw [hnxF]; simp [hit, hip]
    refine @chain_snoc _ (qinit ++ [s.queue_tail]) s.queue_tail s.pool_head
      hchain0 (by simp) ?_
    rw [hnxF]; simp
  · -- qhead
    rw [headq_append_left _ (by simp : qinit ++ [s.queue_tail] ≠ [])]
    exact hw.qhead
  · -- qlast
    simp [sF]
  · -- qterm
    show nextOf sF sF.queue_tail = none
    have : sF.queue_tail = s.pool_head := rfl
    rw [this, hnxF]
    simp [Ne.symm htnp]
  · -- pchain
    refine chain_congr (fun i hi => ?_) (chain_tail hw.pchain)
    have hi' : i ∈ b :: rest := (List.dropLast_sublist _).mem hi
    have hit : i ≠ s.queue_tail := fun h =>
      hdisj (h ▸ htmem) (List.mem_cons_of_mem _ hi')
    have hip : i ≠ s.pool_head := fun h => hpninit (h ▸ hi')
    rw [hnxF]; simp [hit, hip]
  · -- phead
    simp [sF]
  · -- plast
    have := hw.plast
    rw [List.getLast?_cons_cons] at this
    exact this
  · -- pterm
    show nextOf sF sF.pool_tail = none
    have hptF : sF.pool_tail = s.pool_tail := rfl
    have hptm : s.pool_tail ∈ b :: rest := mem_of_lastq (by
      have := hw.plast
      rwa [List.getLast?_cons_cons] at this)
    have hit : s.pool_tail ≠ s.queue_tail := fun h =>
      hdisj (h ▸ htmem) (List.mem_cons_of_mem _ hptm)
    have hip : s.pool_tail ≠ s.pool_head := fun h => hpninit (h ▸ hptm)
    rw [hptF, hnxF]
    simp only [if_neg hit, if_neg hip]
    exact hw.pterm
  · -- nodup
    have heq : ((qinit ++ [s.queue_tail]) ++ [s.pool_head]) ++ (b :: rest) =
        (qinit ++ [s.queue_tail]) ++ (s.pool_head :: b :: rest) := by simp
    rw [heq]
    exact hw.nodup
  · -- bounds
    intro i hi
    rw [hlenF]
    have heq : ((qinit ++ [s.queue_tail]) ++ [s.pool_head]) ++ (b :: rest) =
        (qinit ++ [s.queue_tail]) ++ (s.pool_head :: b :: rest) := by simp
    rw [heq] at hi
    exact hw.bounds i hi
  · -- qvals
    simp only [List.map_append, List.map_cons, List.map_nil]
    have hq1 : qinit.map (valOf sF) = l.map some := by
      rw [← hqv]
      refine List.map_congr_left (fun i hi => ?_)
      have hit : i ≠ s.queue_tail := fun h => htinit (h ▸ hi)
      rw [hvF]; simp [hit]
    have hq2 : valOf sF s.queue_tail = some v := by rw [hvF]; simp
    have hq3 : valOf sF s.pool_head = none := by
      rw [hvF]
      simp only [if_neg (Ne.symm htnp)]
      exact hw.pvals _ hpmem
    rw [hq1, hq2, hq3]
  · -- pvals
    intro i hi
    have hit : i ≠ s.queue_tail := fun h =>
      hdisj (h ▸ htmem) (List.mem_cons_of_mem _ hi)
    rw [hvF]
    simp only [if_neg hit]
    exact hw.pvals _ (List.mem_cons_of_mem _ hi)
  · -- len
    show s.length + 1 = (l ++ [v]).length
    simp [hlen]
  · -- lenle
    show (l ++ [v]).length ≤ s.capacity
    simp
    omega
  · -- plen
    show (b :: rest).length = s.capacity + 1 - (s.length + 1)
    have : (s.pool_head :: b :: rest).length = s.capacity + 1 - s.length := hw.plen
    simp at this ⊢
    omega
  · -- cnt
    show s.enqueued + 1 = sF.dequeued + (s.length + 1)
    have hd : sF.dequeued = s.dequeued := rfl
    have := hw.cnt
    omega

/-- Successful `pop`: on a non-empty well-formed queue, `pop` returns
the oldest value and the resulting state represents the tail of the
contents: the old queue head node is recycled to the end of the pool
list. -/
theorem pop_sim {s : PooledQueue α} {x : α} {xs : List α} (hr : Repres s (x :: xs)) :
    ∃ sF, pop s = some (.ok x, sF) ∧ Repres sF xs ∧ sF.capacity = s.capacity ∧
      sF.length = s.length - 1 ∧ sF.enqueued = s.enqueued ∧
      sF.dequeued = s.dequeued + 1 := by
  obtain ⟨qids, pids, hw⟩ := hr
  -- decompose the queue list: head node, a nonempty remainder
  have h0 := hw.qvals
  obtain ⟨qh, qrest, rfl⟩ : ∃ qh qrest, qids = qh :: qrest := by
    cases qids with
    | nil => simp at h0
    | cons qh qrest => exact ⟨qh, qrest, rfl⟩
  have hqh : qh = s.queue_head := by simpa using hw.qhead
  subst hqh
  simp only [List.map_cons] at h0
  have hvhead : valOf s s.queue_head = some x := by
    have := congrArg List.head? h0
    simpa using this
  have hqrest : qrest.map (valOf s) = xs.map some ++ [none] := by
    have := congrArg List.tail h0
    simpa using this
  obtain ⟨c, qrest2, rfl⟩ : ∃ c qrest2, qrest = c :: qrest2 := by
    cases qrest with
    | nil => simp at hqrest
    | cons c qrest2 => exact ⟨c, qrest2, rfl⟩
  have hnc : nextOf s s.queue_head = some c := hw.qchain.1
  -- decompose the pool list around its tail
  have hP : pids.getLast? = some s.pool_tail := hw.plast
  have hpne : pids ≠ [] := by intro h; rw [h] at hP; simp at hP
  obtain ⟨pinit, rfl⟩ : ∃ pinit, pids = pinit ++ [s.pool_tail] := by
    refine ⟨pids.dropLast, ?_⟩
    have h1 := List.dropLast_append_getLast hpne
    have h2 : pids.getLast hpne = s.pool_tail := by
      have h3 := List.getLast?_eq_getLast pids hpne
      rw [h3] at hP; simpa using hP
    rw [h2] at h1; exact h1.symm
  -- disjointness and bounds facts
  have hnd := List.nodup_append.mp hw.nodup
  have hqnd := hnd.1
  have hpnd := hnd.2.1
  have hdisj := hnd.2.2
  have hqmem : s.queue_head ∈ s.queue_head :: c :: qrest2 := List.mem_cons_self _ _
  have hptmem : s.pool_tail ∈ pinit ++ [s.pool_tail] := by simp
  have hqnpt : s.queue_head ≠ s.pool_tail := fun h => hdisj hqmem (h ▸ hptmem)
  have hqnotr : s.queue_head ∉ c :: qrest2 := (List.nodup_cons.mp hqnd).1
  have hptinit : s.pool_tail ∉ pinit := by
    have hx := List.nodup_append.mp hpnd
    exact fun hm => hx.2.2 hm (by simp)
  have hqb : s.queue_head < s.nodes.length :=
    hw.bounds _ (List.mem_append.mpr (Or.inl hqmem))
  have hptb : s.pool_tail < s.nodes.length :=
    hw.bounds _ (List.mem_append.mpr (Or.inr hptmem))
  -- the popped state
  have hpop : pop s =
      some (.ok x,
        { setNext (setNext (setValue s s.queue_head none) s.queue_head none)
            s.pool_tail (some s.queue_head) with
          pool_tail := s.queue_head
          queue_head := c
          dequeued := s.dequeued + 1
          length := s.length - 1 }) := by
    unfold pop
    rw [hnc, hvhead]
  rw [hpop]
  set sF : PooledQueue α :=
    { setNext (setNext (setValue s s.queue_head none) s.queue_head none)
        s.pool_tail (some s.queue_head) with
      pool_tail := s.queue_head
      queue_head := c
      dequeued := s.dequeued + 1
      length := s.length - 1 } with hsF
  have hlenF : sF.nodes.length = s.nodes.length := by
    show (setNext _ _ _).nodes.length = _
    rw [nodes_setNext, nodes_setNext, nodes_setValue]
  have hnxF : ∀ j, nextOf sF j =
      if j = s.pool_tail then some s.queue_head
      else if j = s.queue_head then none else nextOf s j := by
    intro j
    have h1 : nextOf sF j =
        nextOf (setNext (setNext (setValue s s.queue_head none) s.queue_head none)
          s.pool_tail (some s.queue_head)) j := rfl
    rw [h1]
    by_cases hj1 : j = s.pool_tail
    · subst hj1
      rw [nextOf_setNext_self _ _ _ (by rw [nodes_setNext, nodes_setValue]; exact hptb)]
      simp
    · rw [nextOf_setNext_ne _ _ _ _ (fun hh => hj1 hh.symm)]
      by_cases hj2 : j = s.queue_head
      · subst hj2
        rw [nextOf_setNext_self _ _ _ (by rw [nodes_setValue]; exact hqb)]
        simp [hj1]
      · rw [nextOf_setNext_ne _ _ _ _ (fun hh => hj2 hh.symm), nextOf_setValue]
        simp [hj1, hj2]
  have hvF : ∀ j, valOf sF j = if j = s.queue_head then none else valOf s j := by
    intro j
    have h1 : valOf sF j =
        valOf (setNext (setNext (setValue s s.queue_head none) s.queue_head none)
          s.pool_tail (some s.queue_head)) j := rfl
    rw [h1, valOf_setNext, valOf_setNext]
    by_cases hj : j = s.queue_head
    · subst hj
      rw [valOf_setValue_self _ _ _ hqb]
      simp
    · rw [valOf_setValue_ne _ _ _ _ (fun hh => hj hh.symm)]
      simp [hj]
  have hlen : s.length = xs.length + 1 := by
    have := hw.len; simpa using this
  refine ⟨sF, rfl, ⟨c :: qrest2, (pinit ++ [s.pool_tail]) ++ [s.queue_head], ?_⟩,
    rfl, rfl, rfl, rfl⟩
  refine
    { qchain := ?_, qhead := ?_, qlast := ?_, qterm := ?_
      pchain := ?_, phead := ?_, plast := ?_, pterm := ?_
      nodup := ?_, bounds := ?_, qvals := ?_, pvals := ?_
      len := ?_, lenle := ?_, plen := ?_, cnt := ?_ }
  · -- qchain
    refine chain_congr (fun i hi => ?_) (chain_tail hw.qchain)
    have hi' : i ∈ c :: qrest2 := (List.dropLast_sublist _).mem hi
    have hiq : i ≠ s.queue_head := fun h => hqnotr (h ▸ hi')
    have hipt : i ≠ s.pool_tail := fun h =>
      hdisj (List.mem_cons_of_mem _ hi') (h ▸ hptmem)
    rw [hnxF]; simp [hiq, hipt]
  · -- qhead
    rfl
  · -- qlast
    have := hw.qlast
    rw [List.getLast?_cons_cons] at this
    exact this
  · -- qterm
    show nextOf sF sF.queue_tail = none
    have hqtF : sF.queue_tail = s.queue_tail := rfl
    have hqtm : s.queue_tail ∈ c :: qrest2 := mem_of_lastq (by
      have := hw.qlast
      rwa [List.getLast?_cons_cons] at this)
    have h1 : s.queue_tail ≠ s.queue_head := fun h => hqnotr (h ▸ hqtm)
    have h2 : s.queue_tail ≠ s.pool_tail := fun h =>
      hdisj (List.mem_cons_of_mem _ hqtm) (h ▸ hptmem)
    rw [hqtF, hnxF]
    simp only [if_neg h2, if_neg h1]
    exact hw.qterm
  · -- pchain
    have hchain0 : chain (nextOf sF) (pinit ++ [s.pool_tail]) := by
      refine chain_congr (fun i hi => ?_) hw.pchain
      rw [List.dropLast_concat] at hi
      have hipt : i ≠ s.pool_tail := fun h => hptinit (h ▸ hi)
      have hiq : i ≠ s.queue_head := fun h =>
        hdisj (h ▸ hqmem) (List.mem_append.mpr (Or.inl hi))
      rw [hnxF]; simp [hipt, hiq]
    refine @chain_snoc _ (pinit ++ [s.pool_tail]) s.pool_tail s.queue_head
      hchain0 (by simp) ?_
    rw [hnxF]; simp
  · -- phead
    rw [headq_append_left _ (by simp : pinit ++ [s.pool_tail] ≠ [])]
    exact hw.phead
  · -- plast
    simp [sF]
  · -- pterm
    show nextOf sF sF.pool_tail = none
    have h1 : sF.pool_tail = s.queue_head := rfl
    rw [h1, hnxF]
    simp [hqnpt]
  · -- nodup
    have heq : (c :: qrest2) ++ ((pinit ++ [s.pool_tail]) ++ [s.queue_head]) =
        ((c :: qrest2) ++ (pinit ++ [s.pool_tail])) ++ [s.queue_head] := by simp
    rw [heq, List.nodup_append_comm]
    simpa using hw.nodup
  · -- bounds
    intro i hi
    rw [hlenF]
    refine hw.bounds i ?_
    simp only [List.mem_append, List.mem_cons, List.mem_singleton] at hi ⊢
    tauto
  · -- qvals
    have : (c :: qrest2).map (valOf sF) = (c :: qrest2).map (valOf s) := by
      refine List.map_congr_left (fun i hi => ?_)
      have hiq : i ≠ s.queue_head := fun h => hqnotr (h ▸ hi)
      rw [hvF]; simp [hiq]
    rw [this]
    exact hqrest
  · -- pvals
    intro i hi
    rw [List.mem_append] at hi
    rcases hi with hi | hi
    · have hiq : i ≠ s.queue_head := fun h =>
        hdisj (by rw [h]; exact List.mem_cons_self _ _) hi
      rw [hvF]
      simp only [if_neg hiq]
      exact hw.pvals _ hi
    · obtain rfl : i = s.queue_head := by simpa using hi
      rw [hvF]; simp
  · -- len
    show s.length - 1 = xs.length
    omega
  · -- lenle
    have h1 := hw.lenle
    have hcF : sF.capacity = s.capacity := rfl
    rw [hcF]
    simp at h1
    omega
  · -- plen
    have hplen := hw.plen
    have hcF : sF.capacity = s.capacity := rfl
    have hlF : sF.length = s.length - 1 := rfl
    rw [hcF, hlF]
    simp only [List.length_append, List.length_cons, List.length_nil] at hplen ⊢
    omega
  · -- cnt
    show s.enqueued = s.dequeued + 1 + (s.length - 1)
    have := hw.cnt
    omega

theorem length_descIds : ∀ k, (descIds k).length = k
  | 0 => rfl
  | k + 1 => by simp [descIds, length_descIds k]

theorem mem_descIds : ∀ k i, i ∈ descIds k ↔ 1 ≤ i ∧ i ≤ k
  | 0, i => by simp [descIds]; omega
  | k + 1, i => by
    simp [descIds, mem_descIds k i]
    omega

theorem nodup_descIds : ∀ k, (descIds k).Nodup
  | 0 => List.nodup_nil
  | k + 1 => by
    rw [descIds, List.nodup_cons]
    exact ⟨fun h => by have := (mem_descIds k _).mp h; omega, nodup_descIds k⟩

theorem lastq_descIds : ∀ k, (descIds (k + 1)).getLast? = some 1
  | 0 => rfl
  | k + 1 => by
    show ((k + 2) :: (k + 1) :: descIds k).getLast? = some 1
    rw [List.getLast?_cons_cons]
    exact lastq_descIds k

/-- The `getD` view of the pool-node block laid down by the allocation loop
of `create`. -/
theorem getD_mapRange {β : Type} (f : Nat → β) (d : β) :
    ∀ (C st i : Nat), ((List.range' st C).map f).getD i d =
      if i < C then f (st + i) else d := by
  intro C
  induction C with
  | zero => intro st i; simp
  | succ n ih =>
    intro st i
    rw [List.range'_succ st n 1]
    cases i with
    | zero => simp
    | succ m =>
      simp only [List.map_cons, List.getD_cons_succ]
      rw [ih (st + 1) m]
      by_cases hm : m < n
      · rw [if_pos hm, if_pos (by omega)]
        congr 1
        omega
      · rw [if_neg hm, if_neg (by omega)]

theorem create_shape {C : Nat} {s : PooledQueue α} (h : create C = some s) :
    1 ≤ C ∧ s =
      ({ capacity := C,
         nodes := ⟨none, none⟩ :: ⟨none, none⟩ ::
           (List.range' 1 C).map (fun i => ⟨none, some i⟩),
         length := 0, enqueued := 0, dequeued := 0,
         pool_head := C + 1, queue_tail := 0, pool_tail := 1,
         queue_head := 0 } : PooledQueue α) := by
  unfold create at h
  by_cases hC : C < 1
  · rw [if_pos hC] at h; simp at h
  · rw [if_neg hC] at h
    exact ⟨Nat.le_of_not_lt hC, (Option.some_injective _ h).symm⟩

theorem create_nextOf {C : Nat} {s : PooledQueue α} (h : create C = some s) :
    ∀ j, nextOf s j = if 2 ≤ j ∧ j ≤ C + 1 then some (j - 1) else none := by
  obtain ⟨hC, rfl⟩ := create_shape h
  intro j
  match j with
  | 0 => rfl
  | 1 => rfl
  | i + 2 =>
    simp only [nextOf, getNode, List.getD_cons_succ]
    rw [getD_mapRange]
    by_cases hi : i < C
    · rw [if_pos hi, if_pos (by omega)]
      simp
      omega
    · rw [if_neg hi, if_neg (by omega)]

theorem create_valOf {C : Nat} {s : PooledQueue α} (h : create C = some s) :
    ∀ j, valOf s j = none := by
  obtain ⟨hC, rfl⟩ := create_shape h
  intro j
  match j with
  | 0 => rfl
  | 1 => rfl
  | i + 2 =>
    simp only [valOf, getNode, List.getD_cons_succ]
    rw [getD_mapRange]
    by_cases hi : i < C
    · rw [if_pos hi]
    · rw [if_neg hi]

theorem create_chain {C : Nat} {s : PooledQueue α} (h : create C = some s) :
    ∀ k, k ≤ C → chain (nextOf s) (descIds (k + 1)) := by
  intro k
  induction k with
  | zero => intro _; trivial
  | succ n ih =>
    intro hle
    show chain (nextOf s) ((n + 2) :: (n + 1) :: descIds n)
    refine ⟨?_, ih (by omega)⟩
    rw [create_nextOf h]
    have hb : 2 ≤ n + 2 ∧ n + 2 ≤ C + 1 := by omega
    rw [if_pos hb]
    congr 1

/-- The freshly created queue represents the empty FIFO. -/
theorem repr_create {C : Nat} {s : PooledQueue α} (h : create C = some s) :
    Repres s [] := by
  obtain ⟨hC, hs⟩ := create_shape h
  have hnl : s.nodes.length = C + 2 := by rw [hs]; simp
  have hqh : s.queue_head = 0 := by rw [hs]
  have hqt : s.queue_tail = 0 := by rw [hs]
  have hph : s.pool_head = C + 1 := by rw [hs]
  have hpt : s.pool_tail = 1 := by rw [hs]
  refine ⟨[0], descIds (C + 1), ?_⟩
  refine
    { qchain := trivial, qhead := by rw [hqh]; rfl, qlast := by rw [hqt]; rfl
      qterm := by rw [hqt, create_nextOf h]; simp
      pchain := create_chain h C (le_refl C)
      phead := by rw [hph]; simp [descIds]
      plast := by rw [hpt]; exact lastq_descIds C
      pterm := by
        rw [hpt, create_nextOf h]
        have : ¬(2 ≤ 1 ∧ 1 ≤ C + 1) := by omega
        rw [if_neg this]
      nodup := ?_, bounds := ?_
      qvals := by simp [create_valOf h]
      pvals := fun i _ => create_valOf h i
      len := by rw [hs]; rfl, lenle := by simp
      plen := by rw [hs]; simp [length_descIds]
      cnt := by rw [hs]; rfl }
  · rw [List.nodup_append]
    refine ⟨List.nodup_singleton 0, nodup_descIds _, ?_⟩
    intro a ha hb
    obtain rfl : a = 0 := by simpa using ha
    have := (mem_descIds _ _).mp hb
    omega
  · intro i hi
    rw [hnl]
    rcases List.mem_append.mp hi with hi | hi
    · obtain rfl : i = 0 := by simpa using hi
      omega
    · have := (mem_descIds _ _).mp hi
      omega

theorem repres_facts {s : PooledQueue α} {l : List α} (hr : Repres s l) :
    s.length = l.length ∧ l.length ≤ s.capacity ∧
      s.enqueued = s.dequeued + s.length := by
  obtain ⟨qids, pids, hw⟩ := hr
  exact ⟨hw.len, hw.lenle, hw.cnt⟩

/-- The forward simulation: any trace executed on a well-formed pooled
queue produces exactly the results the simple list queue produces, never
panics, and ends in a state representing the spec-side contents. -/
theorem run_sim : ∀ (ops : List (QOp α)) (s : PooledQueue α) (l : List α),
    Repres s l → ∃ sF, runOps s ops = some ((specRun s.capacity l ops).1, sF) ∧
      Repres sF (specRun s.capacity l ops).2 ∧ sF.capacity = s.capacity := by
  intro ops
  induction ops with
  | nil => exact fun s l hr => ⟨s, rfl, hr, rfl⟩
  | cons op rest ih =>
    intro s l hr
    cases op with
    | push v =>
      by_cases hfull : l.length = s.capacity
      · obtain ⟨sF, h1, h2, h3⟩ := ih s l hr
        refine ⟨sF, ?_, ?_, h3⟩
        · simp only [runOps, push_full hr hfull v, h1, specRun, specPush, if_pos hfull,
            Option.map_some']
        · simpa [specRun, specPush, if_pos hfull] using h2
      · have hlt : l.length < s.capacity :=
          Nat.lt_of_le_of_ne (repres_facts hr).2.1 hfull
        obtain ⟨hok, hrep, hcap⟩ := push_sim hr hlt v
        obtain ⟨sF, h1, h2, h3⟩ := ih (push s v).2 (l ++ [v]) hrep
        rw [hcap] at h1 h2
        refine ⟨sF, ?_, ?_, by rw [h3, hcap]⟩
        · simp only [runOps, h1, hok, specRun, specPush, if_neg hfull, Option.map_some']
        · simpa [specRun, specPush, if_neg hfull] using h2
    | pop =>
      cases l with
      | nil =>
        obtain ⟨sF, h1, h2, h3⟩ := ih s [] hr
        refine ⟨sF, ?_, ?_, h3⟩
        · simp only [runOps, pop_empty hr, Option.some_bind, h1, specRun, specPop,
            Option.map_some']
        · simpa [specRun, specPop] using h2
      | cons x xs =>
        obtain ⟨s0, hpop, hrep0, hcap0, _, _, _⟩ := pop_sim hr
        obtain ⟨sF, h1, h2, h3⟩ := ih s0 xs hrep0
        rw [hcap0] at h1 h2
        refine ⟨sF, ?_, ?_, by rw [h3, hcap0]⟩
        · simp only [runOps, hpop, Option.some_bind, h1, specRun, specPop,
            Option.map_some']
        · simpa [specRun, specPop] using h2

/-- C5: for every reachable queue state of capacity `C` holding the
pending items `l`, `push` fails with `QueueFull` exactly when the number
of pending items equals the capacity, and on success it returns the new
deliverable count, i.e. the number of items in the queue immediately
after the push. -/
theorem C5_push_full_iff_and_count {s : PooledQueue α} {l : List α}
    (hr : Repres s l) (v : α) :
    ((push s v).1 = .error .QueueFull ↔ l.length = s.capacity) ∧
      (l.length ≠ s.capacity →
        (push s v).1 = .ok (l.length + 1) ∧ (push s v).2.length = l.length + 1) := by
  have hle := (repres_facts hr).2.1
  constructor
  · constructor
    · intro herr
      by_contra hne
      have hlt : l.length < s.capacity := Nat.lt_of_le_of_ne hle hne
      have hok := (push_sim hr hlt v).1
      rw [hok] at herr
      exact Except.noConfusion herr
    · intro heq
      rw [push_full hr heq v]
  · intro hne
    have hlt : l.length < s.capacity := Nat.lt_of_le_of_ne hle hne
    obtain ⟨h1, h2, _⟩ := push_sim hr hlt v
    refine ⟨h1, ?_⟩
    have hlenF := (repres_facts h2).1
    simpa using hlenF

/-- Witness for C5 at the concrete empty capacity-1 queue. -/
theorem C5_witness :
    Repres pqEx ([] : List Nat) ∧
      (((push pqEx 7).1 = .error .QueueFull ↔ ([] : List Nat).length = pqEx.capacity) ∧
        (([] : List Nat).length ≠ pqEx.capacity →
          (push pqEx 7).1 = .ok (([] : List Nat).length + 1) ∧
            (push pqEx 7).2.length = ([] : List Nat).length + 1)) :=
  ⟨repr_create (rfl : create 1 = some pqEx),
    C5_push_full_iff_and_count (repr_create (rfl : create 1 = some pqEx)) 7⟩

/-- C10: a failed `push` (on a full queue) and a failed `pop` (on an
empty queue) return their error atomically: the state after the failed
call — all three counters and the entire node array with its links — is
exactly the state before it. -/
theorem C10_failed_ops_atomic {s : PooledQueue α} {l : List α}
    (hr : Repres s l) (v : α) :
    (l.length = s.capacity → push s v = (.error .QueueFull, s)) ∧
      (l = [] → pop s = some (.error .QueueEmpty, s)) :=
  ⟨fun h => push_full hr h v, fun h => pop_empty (h ▸ hr)⟩

/-- Witness for C10: the full one-slot queue rejects a push unchanged,
and the empty queue rejects a pop unchanged. -/
theorem C10_witness :
    (push (push pqEx 5).2 7 = (.error .QueueFull, (push pqEx 5).2)) ∧
      pop pqEx = some (.error .QueueEmpty, pqEx) :=
  ⟨(C10_failed_ops_atomic
      (push_sim (repr_create (rfl : create 1 = some pqEx)) (by decide) 5).2.1 7).1 (by decide),
    (C10_failed_ops_atomic (repr_create (rfl : create 1 = some pqEx)) 7).2 rfl⟩

/-- C7: after any interleaved trace of pushes and pops from a fresh
queue, the counters satisfy `enqueued = dequeued + length` and
`length ≤ capacity` — the invariant is preserved by every operation
(each prefix of a trace is itself a trace). -/
theorem C7_counter_invariant (C : Nat) (ops : List (QOp α))
    (res : List (QOut α) × PooledQueue α) (h : runFrom C ops = some res) :
    res.2.enqueued = res.2.dequeued + res.2.length ∧ res.2.length ≤ res.2.capacity := by
  unfold runFrom at h
  cases hc : create (α := α) C with
  | none => rw [hc] at h; exact Option.noConfusion h
  | some s0 =>
    rw [hc, Option.some_bind] at h
    obtain ⟨sF, h1, h2, h3⟩ := run_sim ops s0 [] (repr_create hc)
    rw [h1] at h
    obtain rfl : (((specRun s0.capacity [] ops).1, sF) :
        List (QOut α) × PooledQueue α) = res := Option.some_injective _ h
    obtain ⟨ha, hb, hcnt⟩ := repres_facts h2
    refine ⟨hcnt, ?_⟩
    calc sF.length = (specRun s0.capacity [] ops).2.length := ha
      _ ≤ sF.capacity := hb

/-- Witness for C7 on the concrete trace push 1; pop against a fresh
capacity-2 queue. -/
theorem C7_witness :
    runFrom 2 [QOp.push 1, QOp.pop] =
      some ([QOut.pushed (.ok 1), QOut.popped (.ok 1)],
        ({ capacity := 2
           nodes := [⟨none, none⟩, ⟨none, some 0⟩, ⟨none, some 1⟩, ⟨none, none⟩]
           length := 0
           enqueued := 1
           dequeued := 1
           pool_head := 2
           queue_tail := 3
           pool_tail := 0
           queue_head := 3 } : PooledQueue Nat)) ∧
      ((1 : Nat) = 1 + 0 ∧ (0 : Nat) ≤ 2) := by
  refine ⟨rfl, ?_⟩
  have := C7_counter_invariant 2 [QOp.push 1, QOp.pop]
    ([QOut.pushed (.ok 1), QOut.popped (.ok 1)],
      ({ capacity := 2
         nodes := [⟨none, none⟩, ⟨none, some 0⟩, ⟨none, some 1⟩, ⟨none, none⟩]
         length := 0
         enqueued := 1
         dequeued := 1
         pool_head := 2
         queue_tail := 3
         pool_tail := 0
         queue_head := 3 } : PooledQueue Nat)) rfl
  exact this

/-- C6: the pooled two-linked-list queue is observationally equivalent
to the simple FIFO queue over lists: any interleaved trace of pushes and
pops run against a fresh pooled queue yields exactly the outputs of the
list FIFO, so pops return values in the order successful pushes appended
them. -/
theorem C6_refines_list_fifo (C : Nat) (hC : 1 ≤ C) (ops : List (QOp α)) :
    (runFrom C ops).map Prod.fst = some (specRun C [] ops).1 := by
  obtain ⟨s0, hc⟩ : ∃ s0, create (α := α) C = some s0 := by
    unfold create
    rw [if_neg (by omega)]
    exact ⟨_, rfl⟩
  have hcap : s0.capacity = C := by rw [(create_shape hc).2]
  obtain ⟨sF, h1, _, _⟩ := run_sim ops s0 [] (repr_create hc)
  unfold runFrom
  rw [hc, Option.some_bind, h1, hcap]
  rfl

/-- Witness for C6 on a concrete interleaved trace with an overflow and
an underflow. -/
theorem C6_witness :
    (runFrom 1 [QOp.push 3, QOp.push 4, QOp.pop, QOp.pop, QOp.push 5]).map Prod.fst =
      some (specRun 1 [] [QOp.push 3, QOp.push 4, QOp.pop, QOp.pop, QOp.push 5]).1 :=
  C6_refines_list_fifo 1 (by decide) [QOp.push 3, QOp.push 4, QOp.pop, QOp.pop, QOp.push 5]

/-- C1: `ActorSystem::create` spawns `thread_pool_size - 1` dispatcher
threads, not `thread_pool_size` — the pool is built from the Rust range
`(1..thread_pool_size)`.  In particular a system created with
`worker_count = 1` has an empty thread pool. -/
theorem C1_create_spawns_one_less :
    (∀ r n, (ActorSystem.create r n).thread_pool.length = n - 1) ∧
      (ActorSystem.create 10 1).thread_pool.length = 0 := by
  refine ⟨fun r n => ?_, rfl⟩
  simp [ActorSystem.create]

/-- C2: the worker thread's whole execution is `dispatcherThread`, a
single receive/turn with no enclosing loop.  Started on a run queue
holding the two ready actors 0 and 1, the completed execution has
processed exactly one message (actor 0's), and actor 1 is still
unprocessed and still enqueued — the thread stopped after a single
item. -/
theorem C2_worker_stops_after_one_item :
    (dispatcherThread exSys).runQueue.messages = [1] ∧
      (dispatcherThread exSys).actors.map (fun a => a.receiver.received) = [1, 0] ∧
      (dispatcherThread exSys).actors.map (fun a => a.receiver.pending) = [0, 1] := by
  refine ⟨rfl, rfl, rfl⟩

/-- C3: in `send`, after a successful mailbox push returned the
deliverable count `readable`, the actor id is enqueued on the run queue
exactly when `readable = 1`; for any other count the run queue is left
untouched.  (The run queue is assumed to have room, since a blocking
push cannot be represented sequentially.) -/
theorem C3_send_schedules_iff_readable_one (sys : DispatchState σ μ) (aid : Nat)
    (m : μ) (actor : Actor σ μ) (ch : SeccChannel μ) (readable : Nat)
    (hres : sys.actors[aid]? = some actor)
    (hpush : actor.receiver.send_await m = some (ch, readable))
    (hroom : sys.runQueue.messages.length < sys.runQueue.capacity) :
    ∃ sys', send sys aid m = some sys' ∧
      sys'.runQueue.messages =
        (if readable = 1 then sys.runQueue.messages ++ [aid]
         else sys.runQueue.messages) ∧
      (readable ≠ 1 → sys'.runQueue = sys.runQueue) := by
  by_cases h1 : readable = 1
  · simp only [send, hres, hpush, if_pos h1]
    refine ⟨_, rfl, ?_, fun h => absurd h1 h⟩
    show (SeccChannel.sendDrop sys.runQueue aid).messages =
      sys.runQueue.messages ++ [aid]
    unfold SeccChannel.sendDrop SeccChannel.send_await
    rw [if_neg (Nat.ne_of_lt hroom)]
  · simp only [send, hres, hpush, if_neg h1]
    exact ⟨_, rfl, rfl, fun _ => rfl⟩

/-- Witness for C3: sending to an idle actor (deliverable 0 → 1)
enqueues its id on the empty run queue. -/
theorem C3_witness :
    exSendSys.actors[0]? = some exIdleActor ∧
      exIdleActor.receiver.send_await 99 =
        some ({ capacity := 32, messages := [99], cursor := 0, sent := 1,
                received := 0 }, 1) ∧
      exSendSys.runQueue.messages.length < exSendSys.runQueue.capacity ∧
      ∃ sys', send exSendSys 0 99 = some sys' ∧
        sys'.runQueue.messages =
          (if (1 : Nat) = 1 then exSendSys.runQueue.messages ++ [0]
           else exSendSys.runQueue.messages) ∧
        ((1 : Nat) ≠ 1 → sys'.runQueue = exSendSys.runQueue) :=
  ⟨rfl, rfl, by decide,
    C3_send_schedules_iff_readable_one exSendSys 0 99 exIdleActor
      { capacity := 32, messages := [99], cursor := 0, sent := 1, received := 0 } 1
      rfl rfl (by decide)⟩

/-- C4 counterexample: with pending messages `[10, 20]` and the skip
cursor past the first, the turn peeks `20`, the handler answers
`ResetSkip` and `reset_skip` runs with no pop — but the next peek
returns `10`, not `20`: the triggering message is not at the head
afterwards and is not the message peeked next. -/
theorem C4_counterexample :
    (Actor.receive exResetActor).2 = some (20, Status.ResetSkip) ∧
      (Actor.receive exResetActor).1.receiver.peek = some 10 ∧
      ¬ (Actor.receive exResetActor).1.receiver.peek = some 20 := by
  refine ⟨rfl, rfl, by decide⟩

/-- C4 (amended): in every turn that invokes the handler on message `m`,
the returned status determines the mailbox operation — `Processed`
causes exactly one pop (the message at the cursor is removed and
`received` is bumped), `Skipped` exactly one skip (only the cursor
advances), and `ResetSkip` exactly one `reset_skip` with no pop: the
messages and the `sent`/`received` counters are untouched and only the
cursor is cleared, so `m` stays in the mailbox at its position, still
deliverable; when no messages were skipped before it (cursor unset) it
remains at the head and the next peek returns it again. -/
theorem C4_status_drives_mailbox (a : Actor σ μ) (m : μ)
    (hpeek : a.receiver.peek = some m) :
    (Actor.receive a).2 = some (m, (a.handler a.state a.aid m).2) ∧
      ((a.handler a.state a.aid m).2 = .Processed →
        (Actor.receive a).1.receiver =
          { a.receiver with messages := a.receiver.messages.eraseIdx a.receiver.cursor,
                            received := a.receiver.received + 1 }) ∧
      ((a.handler a.state a.aid m).2 = .Skipped →
        (Actor.receive a).1.receiver =
          { a.receiver with cursor := a.receiver.cursor + 1 }) ∧
      ((a.handler a.state a.aid m).2 = .ResetSkip →
        (Actor.receive a).1.receiver = { a.receiver with cursor := 0 } ∧
          (Actor.receive a).1.receiver.messages[a.receiver.cursor]? = some m ∧
          (a.receiver.cursor = 0 → (Actor.receive a).1.receiver.peek = some m)) := by
  have hlt : a.receiver.cursor < a.receiver.messages.length := by
    by_contra hge
    rw [SeccChannel.peek, List.getElem?_eq_none (Nat.le_of_not_lt hge)] at hpeek
    exact Option.noConfusion hpeek
  have hget : a.receiver.messages[a.receiver.cursor]? = some m := hpeek
  obtain ⟨st2, stat, heq⟩ : ∃ st2 stat, a.handler a.state a.aid m = (st2, stat) :=
    ⟨_, _, rfl⟩
  cases stat with
  | Processed =>
    have hrec : Actor.receive a =
        ({ a with
            receiver :=
              { a.receiver with
                  messages := a.receiver.messages.eraseIdx a.receiver.cursor,
                  received := a.receiver.received + 1 },
            state := st2 }, some (m, Status.Processed)) := by
      simp only [Actor.receive, hpeek, heq, SeccChannel.pop, hget, Option.map_some']
    rw [hrec, heq]
    exact ⟨rfl, fun _ => rfl, fun h => Status.noConfusion h,
      fun h => Status.noConfusion h⟩
  | Skipped =>
    have hrec : Actor.receive a =
        ({ a with
            receiver := { a.receiver with cursor := a.receiver.cursor + 1 },
            state := st2 }, some (m, Status.Skipped)) := by
      simp only [Actor.receive, hpeek, heq, SeccChannel.skip, if_pos hlt]
    rw [hrec, heq]
    exact ⟨rfl, fun h => Status.noConfusion h, fun _ => rfl,
      fun h => Status.noConfusion h⟩
  | ResetSkip =>
    have hrec : Actor.receive a =
        ({ a with
            receiver := { a.receiver with cursor := 0 },
            state := st2 }, some (m, Status.ResetSkip)) := by
      simp only [Actor.receive, hpeek, heq, SeccChannel.reset_skip]
    rw [hrec, heq]
    refine ⟨rfl, fun h => Status.noConfusion h, fun h => Status.noConfusion h,
      fun _ => ⟨rfl, hget, fun hc => ?_⟩⟩
    show a.receiver.messages[(0 : Nat)]? = some m
    rw [← hc]
    exact hget

/-- Witness for C4 (amended) at a concrete ready actor whose handler
processes. -/
theorem C4_witness :
    exActor.receiver.peek = some 42 ∧
      ((Actor.receive exActor).2 = some (42, (exActor.handler exActor.state exActor.aid 42).2) ∧
        ((exActor.handler exActor.state exActor.aid 42).2 = .Processed →
          (Actor.receive exActor).1.receiver =
            { exActor.receiver with
                messages := exActor.receiver.messages.eraseIdx exActor.receiver.cursor,
                received := exActor.receiver.received + 1 }) ∧
        ((exActor.handler exActor.state exActor.aid 42).2 = .Skipped →
          (Actor.receive exActor).1.receiver =
            { exActor.receiver with cursor := exActor.receiver.cursor + 1 }) ∧
        ((exActor.handler exActor.state exActor.aid 42).2 = .ResetSkip →
          (Actor.receive exActor).1.receiver = { exActor.receiver with cursor := 0 } ∧
            (Actor.receive exActor).1.receiver.messages[exActor.receiver.cursor]? =
              some 42 ∧
            (exActor.receiver.cursor = 0 →
              (Actor.receive exActor).1.receiver.peek = some 42))) :=
  ⟨rfl, C4_status_drives_mailbox exActor 42 rfl⟩

/-- C8: a turn that starts with no deliverable message returns at once:
the peek fails with `Empty`, the handler is not invoked, and the actor —
state and mailbox — is returned exactly unchanged. -/
theorem C8_empty_turn_no_effect (a : Actor σ μ) (h : a.receiver.receivable = 0) :
    Actor.receive a = (a, none) := by
  have hpeek : a.receiver.peek = none := by
    rw [SeccChannel.peek, List.getElem?_eq_none]
    rw [SeccChannel.receivable] at h
    omega
  unfold Actor.receive
  rw [hpeek]

/-- Witness for C8 at the concrete idle actor. -/
theorem C8_witness :
    exIdleActor.receiver.receivable = 0 ∧
      Actor.receive exIdleActor = (exIdleActor, none) :=
  ⟨rfl, C8_empty_turn_no_effect exIdleActor rfl⟩

/-- C9: every actor's mailbox has the fixed capacity 32: `Actor::new`
hard-codes it, and `spawn` — the only other way to make an actor —
passes no capacity through; neither takes a capacity argument. -/
theorem C9_mailbox_capacity_32 :
    (∀ (aid : Nat) (st : σ) (p : σ → Nat → μ → σ × Status),
        (Actor.new aid st p).receiver.capacity = 32) ∧
      (∀ (sys : DispatchState σ μ) (st : σ) (p : σ → Nat → μ → σ × Status),
        ((spawn sys st p).1.actors[(spawn sys st p).2]?).map
            (fun a => a.receiver.capacity) = some 32) := by
  refine ⟨fun aid st p => rfl, fun sys st p => ?_⟩
  show ((sys.actors ++ [Actor.new sys.actors.length st p])[sys.actors.length]?).map
      (fun a => a.receiver.capacity) = some 32
  rw [List.getElem?_append_right (le_refl _)]
  simp [Actor.new, SeccChannel.create]

end AxiomModel
